import Mathlib

/-!
Shallow embedding of `scripts/run_on_commit_history.py` and verification of
its specification.

Python strings are modelled as `List Char` (`Str`); external processes
(the git backend and the user-supplied evaluation script) are modelled by
oracles that carry each external command's captured stdout/stderr/exit
status, following the spec's injected-capability design note.  All control
flow, string plumbing (`strip`, `split(" ", 1)`), error classification and
state mutation are transcribed from the source.
-/

/-- Python strings, modelled as lists of characters. -/
abbrev Str := List Char

/-- Convenience coercion from Lean string literals. -/
def strS (s : String) : Str := s.toList

/-- Characters removed by Python's `str.strip()`. -/
def isPySpace (c : Char) : Bool :=
  c = ' ' || c = '\t' || c = '\n' || c = '\x0b' || c = '\x0c' || c = '\r'

/-- Python `str.strip()`: drop whitespace from both ends. -/
def strip (s : Str) : Str :=
  ((s.dropWhile isPySpace).reverse.dropWhile isPySpace).reverse

/-- Python `s.split(" ", 1)` when it yields two parts: split at the first
space.  `none` models the `ValueError` raised by unpacking a 1-element
split result. -/
def splitFirstSpace : Str → Option (Str × Str)
  | [] => none
  | c :: cs =>
    if c = ' ' then some ([], cs)
    else
      match splitFirstSpace cs with
      | none => none
      | some (a, b) => some (c :: a, b)

/-- Captured result of one external process invocation
(`subprocess.run(..., capture_output=True)`). -/
structure CmdResult where
  stdout : Str
  stderr : Str
  exitCode : Int
deriving DecidableEq

/-- `execute_shell_command` (lines 10-25): `subprocess.run` is called
without `check=True`, so it returns the completed process regardless of
exit status and the `CalledProcessError` handler is unreachable; the
function returns `(stdout, stderr)` and discards the exit code. -/
def execute_shell_command (r : CmdResult) : Str × Str :=
  (r.stdout, r.stderr)

/-- The repository's shared mutable state: its current reference
(branch name, or a commit hash when detached). -/
structure GitRepo where
  head : Str
deriving DecidableEq

/-- Fault/result injection for the external commands issued by one
checkout/evaluate/restore cycle (`count_words_in_readme`).  The
`git rev-parse --abbrev-ref HEAD` query of a working backend reports the
true current reference, so only its stderr is injected; `script` is the
full captured result of `bash {script_path}`. -/
structure EvalOracle where
  revParseErr : Str
  switchErr : Str
  script : CmdResult
  checkoutErr : Str
deriving DecidableEq

/-- Message of the exception raised at lines 161/162/180:
`"Error reverting back to original branch {current_branch.strip()}: {error}"`. -/
def msgRevert (current_branch error : Str) : Str :=
  strS "Error reverting back to original branch " ++ strip current_branch
    ++ strS ": " ++ error

/-- `checkout_from_detached_commit` (lines 168-180): runs
`git checkout {current_branch.strip()} --quiet`; raises when the command
reports stderr (repository state unchanged), otherwise the current
reference becomes the stripped branch name. -/
def checkout_from_detached_commit (checkoutErr : Str) (current_branch : Str)
    (repo : GitRepo) : Except Str Unit × GitRepo :=
  if checkoutErr ≠ [] then
    (Except.error (msgRevert current_branch checkoutErr), repo)
  else
    (Except.ok (), ⟨strip current_branch⟩)

/-- `count_words_in_readme` (lines 122-165): save the current branch,
detach at `commit_hash`, run the evaluation script, restore the branch,
classifying failure of each step by a non-empty captured stderr.  On
script failure the code first restores the branch and then re-checks the
script's (still non-empty) stderr at line 160, so it raises the
"Error reverting back" message even when the revert succeeded and the
`raise` at line 162 is dead code. -/
def count_words_in_readme (o : EvalOracle) (commit_hash : Str)
    (repo : GitRepo) : Except Str Str × GitRepo :=
  let current_branch := repo.head
  if o.revParseErr ≠ [] then
    (Except.error (strS "Error retrieving current branch: " ++ o.revParseErr), repo)
  else if o.switchErr ≠ [] then
    (Except.error (strS "Error checking out commit " ++ commit_hash
      ++ strS ": " ++ o.switchErr), repo)
  else
    let repo1 : GitRepo := ⟨commit_hash⟩
    let (countoutput, error) := execute_shell_command o.script
    if error ≠ [] then
      match checkout_from_detached_commit o.checkoutErr current_branch repo1 with
      | (Except.error e, r) => (Except.error e, r)
      | (Except.ok _, r) => (Except.error (msgRevert current_branch error), r)
    else
      match checkout_from_detached_commit o.checkoutErr current_branch repo1 with
      | (Except.error e, r) => (Except.error e, r)
      | (Except.ok _, r) => (Except.ok (strip countoutput), r)

/-- The evaluation/checkout cycle raises iff some step's stderr is
non-empty; the script's exit code is never consulted. -/
def evalFails (o : EvalOracle) : Bool :=
  !o.revParseErr.isEmpty || !o.switchErr.isEmpty
    || !o.script.stderr.isEmpty || !o.checkoutErr.isEmpty

/-- Message of the `ValueError` raised at line 69. -/
def strValueError : Str :=
  strS "Number of selected commits cannot be greater than total commits."

/-- Message standing for the `IndexError` Python raises when
`commit_hashes[0]` is evaluated on an empty list (line 78). -/
def strIndexError : Str := strS "list index out of range"

/-- The key order used by `sorted(selected_commits, key=lambda x: x[0])`
(line 97). -/
def keyLe (a b : Nat × Str) : Prop := a.1 ≤ b.1

instance : DecidableRel keyLe := fun a b => inferInstanceAs (Decidable (a.1 ≤ b.1))

/-- Lines 74-98 of `select_commits`: the pure selection body run after the
sample-size check — first commit, last commit, evenly spaced middle
commits, sorted ascending by commit number.  `max_commits` is the total
reported by `git rev-list --count HEAD` and `commit_hashes` the identifier
list (oldest first); all list indices are in range whenever
`max_commits = commit_hashes.length`. -/
def select_body (max_commits : Nat) (commit_hashes : List Str)
    (select_count : Nat) : Except Str (List (Nat × Str)) :=
  match commit_hashes with
  | [] => Except.error strIndexError
  | h0 :: rest =>
    let base : List (Nat × Str) :=
      [(1, h0), (max_commits, (h0 :: rest).getLastD h0)]
    let selected : List (Nat × Str) :=
      if select_count > 2 then
        let middle_commit_count := select_count - 2
        let step_size := (max_commits - 1) / (select_count - 1)
        base ++ (List.range middle_commit_count).map (fun j =>
          let middle_commit_position :=
            min ((j + 1) * step_size) (max_commits - 1)
          (middle_commit_position + 1, (h0 :: rest).getD middle_commit_position h0))
      else base
    Except.ok (List.insertionSort keyLe selected)

/-- `select_commits`' selection logic (lines 68-98) applied to a given
total and identifier list: the sample-size guard followed by
`select_body`. -/
def select_logic (max_commits : Nat) (commit_hashes : List Str)
    (select_count : Nat) : Except Str (List (Nat × Str)) :=
  if select_count > max_commits then Except.error strValueError
  else select_body max_commits commit_hashes select_count

/-- Fault/result injection for the history-reading backend queries:
`git rev-list --count HEAD` (stderr + parsed count) and
`git log --reverse --format='%H'` (stderr + identifier lines, oldest
first). -/
structure HistOracle where
  countErr : Str
  countTotal : Nat
  logErr : Str
  hashes : List Str
deriving DecidableEq

/-- `get_commit_hashes` (lines 27-45): raises on a non-empty stderr,
otherwise returns the identifier lines. -/
def get_commit_hashes (h : HistOracle) : Except Str (List Str) :=
  if h.logErr ≠ [] then
    Except.error (strS "Error fetching commit hashes: " ++ h.logErr)
  else Except.ok h.hashes

/-- `select_commits` (lines 47-98): query the total, reject oversized
sample counts, fetch the identifiers, then run the selection body. -/
def select_commits (h : HistOracle) (select_count : Nat) :
    Except Str (List (Nat × Str)) :=
  if h.countErr ≠ [] then
    Except.error (strS "Error fetching total commit count: " ++ h.countErr)
  else if select_count > h.countTotal then Except.error strValueError
  else
    match get_commit_hashes h with
    | Except.error e => Except.error e
    | Except.ok commit_hashes =>
      select_body h.countTotal commit_hashes select_count

/-- Per-commit external behaviour: the captured result of
`git show -s --format='%ci %s' {hash}` plus the evaluation cycle's
oracle. -/
structure CommitOracle where
  showCmd : CmdResult
  ev : EvalOracle
deriving DecidableEq

/-- `get_commit_metadata` (lines 101-119): raise on stderr, else
`commit_date, commit_message = output.split(" ", 1)` and return
`(commit_date, commit_message.strip())`. -/
def get_commit_metadata (co : CommitOracle) (commit_hash : Str) :
    Except Str (Str × Str) :=
  let (output, error) := execute_shell_command co.showCmd
  if error ≠ [] then
    Except.error (strS "Error fetching commit metadata for " ++ commit_hash
      ++ strS ": " ++ error)
  else
    match splitFirstSpace output with
    | none => Except.error (strS "ValueError: not enough values to unpack")
    | some (commit_date, commit_message) =>
      Except.ok (commit_date, strip commit_message)

/-- One entry of the run's aggregate record (`metadata["commits"][hash]`,
lines 234-238). -/
structure Outcome where
  date : Str
  message : Str
  errors : Option Str
deriving DecidableEq

/-- Python `dict` assignment `d[k] = v` (also models re-opening a file for
writing): overwrite in place when the key is present, else append,
preserving insertion order. -/
def dictInsert {α : Type} (k : Str) (v : α) (d : List (Str × α)) :
    List (Str × α) :=
  if d.any (fun p => p.1 = k) then
    d.map (fun p => if p.1 = k then (k, v) else p)
  else d ++ [(k, v)]

/-- The `artefacts` directory: `none` when absent, otherwise its files as
(name, content) pairs. -/
structure FS where
  artefacts : Option (List (Str × Str))
deriving DecidableEq

/-- Write `content` to `artefacts/{name}` (mode `'w'` truncates an
existing file).  Only reachable with the directory present, since the run
creates it first. -/
def writeFile (name content : Str) (fs : FS) : FS :=
  ⟨some (dictInsert name content (fs.artefacts.getD []))⟩

/-- The fixed sentinel stored as a failed commit's output (line 230). -/
def sentinel : Str := strS "cat: README.md: No such file or directory"

/-- Suffix of per-commit artifact file names (line 241). -/
def txtSuffix : Str := strS ".txt"

/-- Name of the aggregate record file (line 246). -/
def metadataJson : Str := strS "metadata.json"

/-- State threaded through the per-commit loop of
`run_on_commit_history`: the repository, the artifact directory and the
in-memory `metadata["commits"]` dictionary. -/
structure LoopState where
  repo : GitRepo
  fs : FS
  dict : List (Str × Outcome)
deriving DecidableEq

/-- The `try`/`except` classification at lines 226-231, applied to the
evaluation cycle's result: `count_output` is the returned value on
success and the fixed sentinel on failure. -/
def contentOf : Except Str Str → Str
  | Except.ok count_output => count_output
  | Except.error _ => sentinel

/-- The `try`/`except` classification at lines 226-231: `errors` is `None`
on success and the raised exception's message on failure. -/
def errOf : Except Str Str → Option Str
  | Except.ok _ => none
  | Except.error e => some e

/-- The per-commit loop of `run_on_commit_history` (lines 220-243): fetch
metadata (an error here propagates and aborts the run), run the
checkout/evaluate/restore cycle inside `try`, record the outcome — the
sentinel string and a non-null error on failure — and write the commit's
artifact file, then continue with the remaining commits. -/
def runLoop (per : Str → CommitOracle) :
    List (Nat × Str) → LoopState → Except Str Unit × LoopState
  | [], st => (Except.ok (), st)
  | (_, commit_hash) :: rest, st =>
    match get_commit_metadata (per commit_hash) commit_hash with
    | Except.error e => (Except.error e, st)
    | Except.ok (commit_date, commit_message) =>
      let dict' := dictInsert commit_hash
        ⟨commit_date, commit_message,
          errOf ((count_words_in_readme (per commit_hash).ev commit_hash st.repo).1)⟩
        st.dict
      let fs' := writeFile (commit_hash ++ txtSuffix)
        (contentOf ((count_words_in_readme (per commit_hash).ev commit_hash st.repo).1))
        st.fs
      runLoop per rest
        ⟨(count_words_in_readme (per commit_hash).ev commit_hash st.repo).2, fs', dict'⟩

/-- Serialization of the aggregate record (`json.dump`, line 248) — an
external structured-record writer per the spec, modelled as a concrete
encoding of the creation date and the recorded entries; no claim
constrains its shape. -/
def mkMetadataContent (created : Str) (dict : List (Str × Outcome)) : Str :=
  created ++ (dict.map (fun e =>
    e.1 ++ e.2.date ++ e.2.message ++ (e.2.errors.getD []))).flatten

/-- State owned by one whole run: the repository and the filesystem. -/
structure RunState where
  repo : GitRepo
  fs : FS
deriving DecidableEq

/-- `run_on_commit_history` (lines 183-250): remove any pre-existing
`artefacts` directory and create a fresh empty one, query the total
commit count (raising on stderr), select the commits, process each one
through the per-commit loop, and finally write `metadata.json`. -/
def run_on_commit_history (h : HistOracle) (per : Str → CommitOracle)
    (max_commits : Nat) (created : Str) (st : RunState) :
    Except Str Unit × RunState :=
  if h.countErr ≠ [] then
    (Except.error (strS "Error fetching total commit count: " ++ h.countErr),
      ⟨st.repo, ⟨some []⟩⟩)
  else
    match select_commits h max_commits with
    | Except.error e => (Except.error e, ⟨st.repo, ⟨some []⟩⟩)
    | Except.ok selected_commits =>
      match runLoop per selected_commits ⟨st.repo, ⟨some []⟩, []⟩ with
      | (Except.error e, ls) => (Except.error e, ⟨ls.repo, ls.fs⟩)
      | (Except.ok _, ls) =>
        (Except.ok (),
          ⟨ls.repo, writeFile metadataJson (mkMetadataContent created ls.dict) ls.fs⟩)

instance {e a : Type} [DecidableEq e] [DecidableEq a] : DecidableEq (Except e a) := fun x y =>
  match x, y with
  | Except.ok u, Except.ok v =>
    if h : u = v then .isTrue (by simp [h]) else .isFalse (by simp [h])
  | Except.error u, Except.error v =>
    if h : u = v then .isTrue (by simp [h]) else .isFalse (by simp [h])
  | Except.ok _, Except.error _ => .isFalse (by simp)
  | Except.error _, Except.ok _ => .isFalse (by simp)

/-- The metadata query for a commit succeeds: its `git show` call reports
no stderr and its output contains a space (so the unpacking at line 118
succeeds). -/
def metaOk (co : CommitOracle) : Prop :=
  co.showCmd.stderr = [] ∧ (splitFirstSpace co.showCmd.stdout).isSome = true

instance (co : CommitOracle) : Decidable (metaOk co) :=
  inferInstanceAs (Decidable (_ ∧ _))

/-- Content of a commit's artifact file as written by the loop: the
stripped script output on success, the fixed sentinel on failure. -/
def expectedContent (o : EvalOracle) : Str :=
  if evalFails o then sentinel else strip o.script.stdout

/-- An aggregate-record entry is correctly recorded for its key: its date
and message come from the commit's metadata query and its error field is
non-null exactly when the commit's evaluation cycle failed. -/
def recordedOk (per : Str → CommitOracle) (e : Str × Outcome) : Prop :=
  ∃ d m, get_commit_metadata (per e.1) e.1 = Except.ok (d, m) ∧
    e.2.date = d ∧ e.2.message = m ∧
    e.2.errors.isSome = evalFails (per e.1).ev

/-- The loop state after processing one commit whose metadata query
returned `(d, m)`: exactly the state `runLoop` recurses with. -/
def stepState (per : Str → CommitOracle) (ch : Str) (st : LoopState)
    (d m : Str) : LoopState :=
  ⟨(count_words_in_readme (per ch).ev ch st.repo).2,
   writeFile (ch ++ txtSuffix)
     (contentOf ((count_words_in_readme (per ch).ev ch st.repo).1)) st.fs,
   dictInsert ch ⟨d, m, errOf ((count_words_in_readme (per ch).ev ch st.repo).1)⟩
     st.dict⟩

/-- Concrete two-commit fixture used by witnesses: commit `a` evaluates
successfully (script prints `5`), commit `b`'s script fails with stderr
`no file`. -/
def perFix : Str → CommitOracle := fun hsh =>
  if hsh = ['b'] then
    ⟨⟨strS "2020-01-02 10:00:00 +0000 fix", [], 0⟩,
      ⟨[], [], ⟨[], strS "no file", 1⟩, []⟩⟩
  else
    ⟨⟨strS "2020-01-01 09:00:00 +0000 init", [], 0⟩,
      ⟨[], [], ⟨strS "5", [], 0⟩, []⟩⟩

lemma orderedInsert_last (x : Nat × Str) : ∀ (l : List (Nat × Str)),
    (∀ y ∈ l, y.1 < x.1) →
    List.orderedInsert keyLe x l = l ++ [x] := by
  intro l
  induction l with
  | nil => intro _; rfl
  | cons y ys ih =>
    intro h
    have hy : y.1 < x.1 := h y (by simp)
    have hn : ¬ keyLe x y := by simp only [keyLe]; omega
    simp only [List.orderedInsert, if_neg hn, List.cons_append, List.cons.injEq, true_and]
    exact ih (fun z hz => h z (by simp [hz]))

lemma orderedInsert_first (x y : Nat × Str) (l : List (Nat × Str))
    (h : keyLe x y) : List.orderedInsert keyLe x (y :: l) = x :: y :: l := by
  simp only [List.orderedInsert, if_pos h]

lemma insertionSort_first_last (h0 hl : Str) (m : Nat) (mids : List (Nat × Str))
    (hm : 2 ≤ m)
    (hp : mids.Pairwise (fun a b => a.1 < b.1))
    (hlow : ∀ y ∈ mids, 1 ≤ y.1)
    (hhigh : ∀ y ∈ mids, y.1 < m) :
    List.insertionSort keyLe ((1, h0) :: (m, hl) :: mids)
      = (1, h0) :: (mids ++ [(m, hl)]) := by
  have hs : List.Sorted keyLe mids := hp.imp (fun h => le_of_lt h)
  have e1 : List.insertionSort keyLe ((1, h0) :: (m, hl) :: mids)
      = List.orderedInsert keyLe (1, h0)
          (List.orderedInsert keyLe (m, hl) (List.insertionSort keyLe mids)) := rfl
  rw [e1, hs.insertionSort_eq, orderedInsert_last _ mids hhigh]
  cases mids with
  | nil => exact orderedInsert_first _ _ _ (by simp [keyLe]; omega)
  | cons y ys =>
    rw [List.cons_append]
    exact orderedInsert_first _ _ _ (hlow y (by simp))

/-- C1 (amended): for every identifier list and sample count with
`commit_hashes.length >= select_count >= 2`, the selection logic succeeds
and returns a sequence whose first element has position 1, whose last
element has position `total`, whose positions are strictly ascending (so
duplicate-free), and whose length is at most `select_count`. -/
theorem select_logic_sample_invariants (commit_hashes : List Str)
    (select_count : Nat) (h2 : 2 ≤ select_count)
    (hle : select_count ≤ commit_hashes.length) :
    ∃ l, select_logic commit_hashes.length commit_hashes select_count
        = Except.ok l ∧
      (l.map Prod.fst).head? = some 1 ∧
      (l.map Prod.fst).getLast? = some commit_hashes.length ∧
      List.Chain' (· < ·) (l.map Prod.fst) ∧
      l.length ≤ select_count := by
  cases commit_hashes with
  | nil => simp at hle; omega
  | cons h0 rest =>
  set m := (h0 :: rest).length with hmdef
  have hm : 2 ≤ m := le_trans h2 hle
  have hnot : ¬ select_count > m := by omega
  rw [select_logic, if_neg hnot, select_body]
  by_cases hsc : select_count > 2
  · -- middle commits present
    set sc := select_count with hscdef
    set step := (m - 1) / (sc - 1) with hstepdef
    have hstep1 : 1 ≤ step := by
      rw [hstepdef]
      exact (Nat.one_le_div_iff (by omega)).mpr (by omega)
    have hA : (sc - 1) * step ≤ m - 1 := by
      rw [hstepdef, mul_comm]
      exact Nat.div_mul_le_self (m - 1) (sc - 1)
    have hbound : ∀ j, j < sc - 2 → (j + 1) * step ≤ m - 2 := by
      intro j hj
      have hB : (j + 1) * step ≤ (sc - 2) * step :=
        Nat.mul_le_mul_right step (by omega)
      have hC : (sc - 2) * step + step ≤ m - 1 := by
        have : (sc - 2) * step + step = (sc - 2 + 1) * step := by ring
        rw [this]
        have : sc - 2 + 1 = sc - 1 := by omega
        rw [this]; exact hA
      omega
    have hmin : ∀ j ∈ List.range (sc - 2),
        min ((j + 1) * step) (m - 1) = (j + 1) * step := by
      intro j hj
      rw [List.mem_range] at hj
      exact min_eq_left (by have := hbound j hj; omega)
    rw [if_pos hsc]
    -- rewrite the middle-commit map without the (inert) min
    have hmap : (List.range (sc - 2)).map (fun j =>
          (min ((j + 1) * step) (m - 1) + 1,
            (h0 :: rest).getD (min ((j + 1) * step) (m - 1)) h0))
        = (List.range (sc - 2)).map (fun j =>
          ((j + 1) * step + 1, (h0 :: rest).getD ((j + 1) * step) h0)) := by
      apply List.map_congr_left
      intro j hj
      rw [hmin j hj]
    simp only [hmap]
    set mids := (List.range (sc - 2)).map (fun j =>
          ((j + 1) * step + 1, (h0 :: rest).getD ((j + 1) * step) h0)) with hmids
    have hkeys : ∀ y ∈ mids, ∃ j, j < sc - 2 ∧ y.1 = (j + 1) * step + 1 := by
      intro y hy
      rw [hmids, List.mem_map] at hy
      obtain ⟨j, hj, rfl⟩ := hy
      exact ⟨j, List.mem_range.mp hj, rfl⟩
    have hp : mids.Pairwise (fun a b => a.1 < b.1) := by
      rw [hmids, List.pairwise_map]
      exact (List.pairwise_lt_range _).imp (by
        intro a b hab
        simp only
        have : (a + 1) * step < (b + 1) * step :=
          Nat.mul_lt_mul_of_lt_of_le (by omega) (le_refl step) (by omega)
        omega)
    have hlow : ∀ y ∈ mids, 1 ≤ y.1 := by
      intro y hy; obtain ⟨j, _, hj⟩ := hkeys y hy; omega
    have hhigh : ∀ y ∈ mids, y.1 < m := by
      intro y hy; obtain ⟨j, hjlt, hj⟩ := hkeys y hy
      have := hbound j hjlt
      omega
    have hsort := insertionSort_first_last h0 ((h0 :: rest).getLastD h0) m mids hm hp hlow hhigh
    rw [show ([(1, h0), (m, (h0 :: rest).getLastD h0)] ++ mids : List (Nat × Str))
        = (1, h0) :: (m, (h0 :: rest).getLastD h0) :: mids from rfl, hsort]
    refine ⟨_, rfl, ?_, ?_, ?_, ?_⟩
    · simp
    · rw [List.map_cons, List.map_append]
      rw [show (1 : Nat) :: (mids.map Prod.fst ++ [(m, (h0 :: rest).getLastD h0)].map Prod.fst)
          = (1 :: mids.map Prod.fst) ++ [m] by simp]
      exact List.getLast?_concat _
    · apply List.Pairwise.chain'
      rw [List.map_cons, List.map_append]
      rw [List.pairwise_cons]
      constructor
      · intro a ha
        simp only [List.mem_append, List.mem_map, List.map_cons, List.map_nil,
          List.mem_singleton] at ha
        rcases ha with ⟨y, hy, rfl⟩ | rfl
        · obtain ⟨j, _, hj⟩ := hkeys y hy
          have : 1 ≤ (j + 1) * step := Nat.one_le_iff_ne_zero.mpr (by positivity)
          omega
        · omega
      · rw [List.pairwise_append]
        refine ⟨?_, by simp, ?_⟩
        · rw [List.pairwise_map]
          exact hp.imp (fun h => h)
        · intro a ha b hb
          simp only [List.map_cons, List.map_nil, List.mem_singleton] at hb
          subst hb
          rw [List.mem_map] at ha
          obtain ⟨y, hy, rfl⟩ := ha
          exact hhigh y hy
    · simp only [List.length_cons, List.length_append, hmids, List.length_map,
        List.length_range, List.length_singleton, List.length_nil]
      omega
  · -- select_count = 2: only first and last
    rw [if_neg hsc]
    have hsc2 : select_count = 2 := by omega
    have hsort := insertionSort_first_last h0 ((h0 :: rest).getLastD h0) m []
      hm (by simp) (by simp) (by simp)
    rw [show ([(1, h0), (m, (h0 :: rest).getLastD h0)] : List (Nat × Str))
        = (1, h0) :: (m, (h0 :: rest).getLastD h0) :: [] from rfl, hsort]
    refine ⟨_, rfl, ?_, ?_, ?_, ?_⟩
    · simp
    · simp
    · simp only [List.nil_append, List.map_cons, List.map_nil]
      exact List.Pairwise.chain' (by
        rw [List.pairwise_cons]
        exact ⟨by intro a ha; simp at ha; omega, by simp⟩)
    · simp [hsc2]

/-- Witness for C1 at total 3, sample count 2. -/
theorem select_logic_sample_invariants_witness :
    2 ≤ 2 ∧ 2 ≤ ([['a'],['b'],['c']] : List Str).length ∧
    (∃ l, select_logic ([['a'],['b'],['c']] : List Str).length [['a'],['b'],['c']] 2
        = Except.ok l ∧
      (l.map Prod.fst).head? = some 1 ∧
      (l.map Prod.fst).getLast? = some ([['a'],['b'],['c']] : List Str).length ∧
      List.Chain' (· < ·) (l.map Prod.fst) ∧
      l.length ≤ 2) :=
  ⟨by decide, by decide,
    select_logic_sample_invariants [['a'],['b'],['c']] 2 (by decide) (by decide)⟩

/-- C1 counterexample: within the claim's stated range
`total >= sample_count >= 1`, sample count 1 with total 2 yields a
sequence of length 2 > 1, and total 1 with sample count 1 yields duplicate
positions. -/
theorem select_logic_length_cex :
    select_logic ([['a'],['b']] : List Str).length [['a'],['b']] 1
        = Except.ok [(1, ['a']), (2, ['b'])]
    ∧ ¬ (([(1, ['a']), (2, ['b'])] : List (Nat × Str)).length ≤ 1)
    ∧ select_logic ([['x']] : List Str).length [['x']] 1
        = Except.ok [(1, ['x']), (1, ['x'])]
    ∧ ¬ (([(1, ['x']), (1, ['x'])] : List (Nat × Str)).map Prod.fst).Nodup := by
  decide

/-- C9: at total 10 and sample count 4 the sampler returns exactly
positions 1, 4, 7, 10, and the step is `(10 - 1) / (4 - 1) = 3`. -/
theorem select_ten_four :
    select_logic ([['0'],['1'],['2'],['3'],['4'],['5'],['6'],['7'],['8'],['9']] : List Str).length
        [['0'],['1'],['2'],['3'],['4'],['5'],['6'],['7'],['8'],['9']] 4
      = Except.ok [(1, ['0']), (4, ['3']), (7, ['6']), (10, ['9'])]
    ∧ (10 - 1) / (4 - 1) = 3 := by
  decide

/-- C7: with `sample_count = 1` and `total > 1` the returned position set
is exactly the first and last positions (both endpoints included, the
accepted quirk); with `total = 1` the returned position set is the
singleton 1 for every admissible sample count. -/
theorem select_edge_cases :
    (∀ commit_hashes : List Str, 2 ≤ commit_hashes.length →
      ∃ l, select_logic commit_hashes.length commit_hashes 1 = Except.ok l ∧
        (l.map Prod.fst).toFinset = {1, commit_hashes.length}) ∧
    (∀ (hv : Str) (select_count : Nat), select_count ≤ 1 →
      ∃ l, select_logic ([hv] : List Str).length [hv] select_count = Except.ok l ∧
        (l.map Prod.fst).toFinset = {1}) := by
  constructor
  · intro commit_hashes hlen
    cases commit_hashes with
    | nil => simp at hlen
    | cons h0 rest =>
      set m := (h0 :: rest).length with hmdef
      have hm : 2 ≤ m := hlen
      rw [select_logic, if_neg (by omega), select_body]
      rw [if_neg (by omega)]
      rw [show ([(1, h0), (m, (h0 :: rest).getLastD h0)] : List (Nat × Str))
          = (1, h0) :: (m, (h0 :: rest).getLastD h0) :: [] from rfl,
        insertionSort_first_last h0 ((h0 :: rest).getLastD h0) m [] hm
          (by simp) (by simp) (by simp)]
      refine ⟨_, rfl, ?_⟩
      simp
  · intro hv select_count hsc
    rw [show ([hv] : List Str).length = 1 from rfl, select_logic,
      if_neg (by omega), select_body]
    rw [if_neg (by omega)]
    refine ⟨_, rfl, ?_⟩
    simp [List.insertionSort, List.orderedInsert, keyLe]

/-- Witness for C7 at total 2 / sample count 1 and at total 1 / sample
count 1. -/
theorem select_edge_cases_witness :
    ((2:Nat) ≤ ([['a'],['b']] : List Str).length ∧
      ∃ l, select_logic ([['a'],['b']] : List Str).length [['a'],['b']] 1 = Except.ok l ∧
        (l.map Prod.fst).toFinset = {1, ([['a'],['b']] : List Str).length}) ∧
    ((1:Nat) ≤ 1 ∧
      ∃ l, select_logic ([['x']] : List Str).length [['x']] 1 = Except.ok l ∧
        (l.map Prod.fst).toFinset = {1}) :=
  ⟨⟨by decide, select_edge_cases.1 [['a'],['b']] (by decide)⟩,
   ⟨by decide, select_edge_cases.2 ['x'] 1 (by decide)⟩⟩

/-- C2: provided the restore command itself succeeds (the one fatal case
the spec treats separately) and the saved reference carries no surrounding
whitespace, every checkout/evaluate/restore cycle leaves the repository's
current reference equal to the reference held before entry, on every exit
path: evaluation success, evaluation failure (non-empty evaluator stderr),
and the earlier failure paths. -/
theorem checkout_restores_reference (o : EvalOracle) (commit_hash : Str)
    (repo : GitRepo)
    (hrestore : o.checkoutErr = [])
    (hclean : strip repo.head = repo.head) :
    ((count_words_in_readme o commit_hash repo).2).head = repo.head := by
  rw [count_words_in_readme]
  by_cases h1 : o.revParseErr ≠ []
  · rw [if_pos h1]
  · rw [if_neg h1]
    by_cases h2 : o.switchErr ≠ []
    · rw [if_pos h2]
    · rw [if_neg h2]
      simp only [execute_shell_command, checkout_from_detached_commit,
        hrestore, ne_eq, not_true_eq_false, if_false, if_neg (by simp : ¬ ([] : Str) ≠ [])]
      by_cases h3 : o.script.stderr ≠ []
      · rw [if_pos h3]
        exact hclean
      · rw [if_neg h3]
        exact hclean

/-- Witness for C2: a failing evaluator still leaves the reference at
`main`. -/
theorem checkout_restores_reference_witness :
    ((⟨[], [], ⟨['o'], strS "fail", 0⟩, []⟩ : EvalOracle).checkoutErr = []) ∧
    strip (strS "main") = strS "main" ∧
    ((count_words_in_readme ⟨[], [], ⟨['o'], strS "fail", 0⟩, []⟩ ['c']
        ⟨strS "main"⟩).2).head = strS "main" :=
  ⟨rfl, by decide,
    checkout_restores_reference ⟨[], [], ⟨['o'], strS "fail", 0⟩, []⟩ ['c']
      ⟨strS "main"⟩ rfl (by decide)⟩

/-- C4 counterexample: a script invocation exiting with status 1 but
empty stderr is classified as a success (its output is returned), where
the claim requires it to be classified as a failure. -/
theorem eval_nonzero_exit_cex :
    (count_words_in_readme ⟨[], [], ⟨['7'], [], 1⟩, []⟩ ['c'] ⟨strS "main"⟩).1
        = Except.ok ['7']
    ∧ ((⟨['7'], [], 1⟩ : CmdResult).exitCode = 0 → False) := by
  constructor
  · decide
  · decide

/-- C4 (amended): with the surrounding git commands healthy, the
evaluator step fails exactly when the external command's error stream is
non-empty — the exit status is never consulted — and the raised error
carries the command's stderr. -/
theorem eval_fails_iff_nonempty_stderr (o : EvalOracle) (commit_hash : Str)
    (repo : GitRepo)
    (h1 : o.revParseErr = []) (h2 : o.switchErr = []) (h3 : o.checkoutErr = []) :
    ((∃ e, (count_words_in_readme o commit_hash repo).1 = Except.error e)
        ↔ o.script.stderr ≠ [])
    ∧ (o.script.stderr ≠ [] →
        (count_words_in_readme o commit_hash repo).1
          = Except.error (msgRevert repo.head o.script.stderr)) := by
  rw [count_words_in_readme]
  simp only [h1, h2, execute_shell_command, checkout_from_detached_commit, h3,
    ne_eq, not_true_eq_false, if_false,
    if_neg (by simp : ¬ ([] : Str) ≠ [])]
  by_cases h4 : o.script.stderr ≠ []
  · rw [if_pos h4]
    exact ⟨⟨fun _ => h4, fun _ => ⟨_, rfl⟩⟩, fun _ => rfl⟩
  · rw [if_neg h4]
    exact ⟨⟨fun ⟨e, he⟩ => by simp at he, fun h => absurd h h4⟩,
      fun h => absurd h h4⟩

/-- Witness for C4 (amended) at a concrete failing script. -/
theorem eval_fails_iff_nonempty_stderr_witness :
    (∃ e, (count_words_in_readme ⟨[], [], ⟨[], strS "boom", 0⟩, []⟩ ['c']
        ⟨strS "main"⟩).1 = Except.error e)
    ∧ (count_words_in_readme ⟨[], [], ⟨[], strS "boom", 0⟩, []⟩ ['c']
        ⟨strS "main"⟩).1 = Except.error (msgRevert (strS "main") (strS "boom")) :=
  ⟨(eval_fails_iff_nonempty_stderr _ ['c'] ⟨strS "main"⟩ rfl rfl rfl).1.mpr
      (by decide),
   (eval_fails_iff_nonempty_stderr _ ['c'] ⟨strS "main"⟩ rfl rfl rfl).2
      (by decide)⟩

/-- C6: when the backend's count query succeeds and the requested sample
count exceeds the total, the run fails with the invalid-sample-size error
and the repository's reference is untouched (no checkout happened); only
the empty artifact directory was set up. -/
theorem invalid_sample_size_rejected (h : HistOracle) (per : Str → CommitOracle)
    (max_commits : Nat) (created : Str) (st : RunState)
    (hok : h.countErr = []) (hgt : h.countTotal < max_commits) :
    run_on_commit_history h per max_commits created st
      = (Except.error strValueError, ⟨st.repo, ⟨some []⟩⟩) := by
  rw [run_on_commit_history, if_neg (by simp [hok]), select_commits,
    if_neg (by simp [hok]), if_pos (by omega)]

/-- Witness for C6 at total 1, sample count 2. -/
theorem invalid_sample_size_rejected_witness :
    (⟨[], 1, [], [['a']]⟩ : HistOracle).countErr = [] ∧ (1 : Nat) < 2 ∧
    run_on_commit_history ⟨[], 1, [], [['a']]⟩
        (fun _ => ⟨⟨[], [], 0⟩, ⟨[], [], ⟨[], [], 0⟩, []⟩⟩) 2 []
        ⟨⟨strS "main"⟩, ⟨none⟩⟩
      = (Except.error strValueError, ⟨⟨strS "main"⟩, ⟨some []⟩⟩) :=
  ⟨rfl, by decide,
    invalid_sample_size_rejected ⟨[], 1, [], [['a']]⟩
      (fun _ => ⟨⟨[], [], 0⟩, ⟨[], [], ⟨[], [], 0⟩, []⟩⟩) 2 []
      ⟨⟨strS "main"⟩, ⟨none⟩⟩ rfl (by decide)⟩

/-- C5 (amended): when the total-count query or the identifier-listing
query fails, the run aborts with an error before any sampling — the
repository reference is untouched and no artifact file is written — but
the artifact directory has already been replaced by a fresh empty one. -/
theorem fatal_backend_aborts (h : HistOracle) (per : Str → CommitOracle)
    (max_commits : Nat) (created : Str) (st : RunState)
    (hfatal : h.countErr ≠ [] ∨ h.logErr ≠ []) :
    ∃ e, run_on_commit_history h per max_commits created st
      = (Except.error e, ⟨st.repo, ⟨some []⟩⟩) := by
  by_cases hc : h.countErr ≠ []
  · exact ⟨_, by rw [run_on_commit_history, if_pos hc]⟩
  · have hl : h.logErr ≠ [] := by tauto
    rw [run_on_commit_history, if_neg hc, select_commits, if_neg hc]
    by_cases hgt : max_commits > h.countTotal
    · rw [if_pos hgt]
      exact ⟨strValueError, rfl⟩
    · rw [if_neg hgt, get_commit_hashes, if_pos hl]
      exact ⟨_, rfl⟩

/-- Witness for C5 (amended) at a failing count query. -/
theorem fatal_backend_aborts_witness :
    ((⟨strS "x", 0, [], []⟩ : HistOracle).countErr ≠ []
      ∨ (⟨strS "x", 0, [], []⟩ : HistOracle).logErr ≠ []) ∧
    ∃ e, run_on_commit_history ⟨strS "x", 0, [], []⟩
        (fun _ => ⟨⟨[], [], 0⟩, ⟨[], [], ⟨[], [], 0⟩, []⟩⟩) 1 []
        ⟨⟨strS "main"⟩, ⟨none⟩⟩
      = (Except.error e, ⟨⟨strS "main"⟩, ⟨some []⟩⟩) :=
  ⟨Or.inl (by decide),
    fatal_backend_aborts ⟨strS "x", 0, [], []⟩
      (fun _ => ⟨⟨[], [], 0⟩, ⟨[], [], ⟨[], [], 0⟩, []⟩⟩) 1 []
      ⟨⟨strS "main"⟩, ⟨none⟩⟩ (Or.inl (by decide))⟩

/-- C5 counterexample: a run whose count query fails, started with no
artifact directory present, still produces one (empty), where the claim
says no artifact directory — not even an empty one — is produced. -/
theorem fatal_backend_dir_cex :
    (run_on_commit_history ⟨strS "boom", 0, [], []⟩
        (fun _ => ⟨⟨[], [], 0⟩, ⟨[], [], ⟨[], [], 0⟩, []⟩⟩) 1 []
        ⟨⟨strS "main"⟩, ⟨none⟩⟩).2.fs.artefacts = some []
    ∧ (run_on_commit_history ⟨strS "boom", 0, [], []⟩
        (fun _ => ⟨⟨[], [], 0⟩, ⟨[], [], ⟨[], [], 0⟩, []⟩⟩) 1 []
        ⟨⟨strS "main"⟩, ⟨none⟩⟩).1
      = Except.error (strS "Error fetching total commit count: " ++ strS "boom") := by
  constructor
  · decide
  · decide

lemma runLoop_cons_err (per : Str → CommitOracle) (n : Nat) (ch : Str)
    (rest : List (Nat × Str)) (st : LoopState) (e : Str)
    (hm : get_commit_metadata (per ch) ch = Except.error e) :
    runLoop per ((n, ch) :: rest) st = (Except.error e, st) := by
  rw [runLoop, hm]

lemma runLoop_cons_ok (per : Str → CommitOracle) (n : Nat) (ch : Str)
    (rest : List (Nat × Str)) (st : LoopState) (d m : Str)
    (hm : get_commit_metadata (per ch) ch = Except.ok (d, m)) :
    runLoop per ((n, ch) :: rest) st
      = runLoop per rest (stepState per ch st d m) := by
  rw [runLoop, hm]
  rfl

lemma mem_of_mem_dictInsert {α : Type} {k : Str} {v : α} {d : List (Str × α)}
    {e : Str × α} (h : e ∈ dictInsert k v d) : e = (k, v) ∨ e ∈ d := by
  rw [dictInsert] at h
  split at h
  · rw [List.mem_map] at h
    obtain ⟨p, hp, he⟩ := h
    by_cases hpk : p.1 = k
    · rw [if_pos hpk] at he
      exact Or.inl he.symm
    · rw [if_neg hpk] at he
      exact Or.inr (he ▸ hp)
  · rw [List.mem_append] at h
    rcases h with h | h
    · exact Or.inr h
    · simp only [List.mem_singleton] at h
      exact Or.inl h

lemma self_mem_dictInsert {α : Type} (k : Str) (v : α) (d : List (Str × α)) :
    (k, v) ∈ dictInsert k v d := by
  rw [dictInsert]
  split
  · rename_i ha
    rw [List.any_eq_true] at ha
    obtain ⟨p, hp, hpk⟩ := ha
    rw [List.mem_map]
    refine ⟨p, hp, ?_⟩
    rw [decide_eq_true_eq] at hpk
    rw [if_pos hpk]
  · simp

lemma mem_dictInsert_of_ne {α : Type} {k : Str} {v : α} {d : List (Str × α)}
    {e : Str × α} (h : e ∈ d) (hne : e.1 ≠ k) : e ∈ dictInsert k v d := by
  rw [dictInsert]
  split
  · rw [List.mem_map]
    refine ⟨e, h, ?_⟩
    rw [if_neg hne]
  · exact List.mem_append_left _ h

lemma dictInsert_fst_subset {α : Type} {k : Str} {v : α} {d : List (Str × α)}
    {x : Str} (hx : x ∈ (dictInsert k v d).map Prod.fst) :
    x = k ∨ x ∈ d.map Prod.fst := by
  rw [List.mem_map] at hx
  obtain ⟨e, he, rfl⟩ := hx
  rcases mem_of_mem_dictInsert he with rfl | he'
  · exact Or.inl rfl
  · exact Or.inr (List.mem_map_of_mem Prod.fst he')

lemma count_words_ok (o : EvalOracle) (c : Str) (repo : GitRepo)
    (h : evalFails o = false) :
    (count_words_in_readme o c repo).1 = Except.ok (strip o.script.stdout) := by
  rw [evalFails] at h
  simp only [Bool.or_eq_false_iff, Bool.not_eq_false', List.isEmpty_iff] at h
  obtain ⟨⟨⟨h1, h2⟩, h3⟩, h4⟩ := h
  rw [count_words_in_readme]
  simp [h1, h2, h3, h4, execute_shell_command, checkout_from_detached_commit]

lemma count_words_err (o : EvalOracle) (c : Str) (repo : GitRepo)
    (h : evalFails o = true) :
    ∃ e, (count_words_in_readme o c repo).1 = Except.error e := by
  rw [count_words_in_readme]
  by_cases h1 : o.revParseErr ≠ []
  · rw [if_pos h1]
    exact ⟨_, rfl⟩
  · rw [if_neg h1]
    by_cases h2 : o.switchErr ≠ []
    · rw [if_pos h2]
      exact ⟨_, rfl⟩
    · rw [if_neg h2]
      simp only [execute_shell_command]
      have h1V : o.revParseErr = [] := not_not.mp h1
      have h2V : o.switchErr = [] := not_not.mp h2
      by_cases h3 : o.script.stderr ≠ []
      · rw [if_pos h3, checkout_from_detached_commit]
        by_cases h5 : o.checkoutErr ≠ []
        · rw [if_pos h5]
          exact ⟨_, rfl⟩
        · rw [if_neg h5]
          exact ⟨_, rfl⟩
      · rw [if_neg h3]
        have h3V : o.script.stderr = [] := not_not.mp h3
        have h5 : o.checkoutErr ≠ [] := by
          by_contra h5
          rw [evalFails] at h
          simp [h1V, h2V, h3V, h5] at h
        rw [checkout_from_detached_commit, if_pos h5]
        exact ⟨_, rfl⟩

lemma errOf_isSome (o : EvalOracle) (c : Str) (repo : GitRepo) :
    (errOf ((count_words_in_readme o c repo).1)).isSome = evalFails o := by
  cases hf : evalFails o
  · rw [count_words_ok o c repo hf]
    rfl
  · obtain ⟨e, he⟩ := count_words_err o c repo hf
    rw [he]
    rfl

lemma contentOf_expected (o : EvalOracle) (c : Str) (repo : GitRepo) :
    contentOf ((count_words_in_readme o c repo).1) = expectedContent o := by
  cases hf : evalFails o
  · rw [count_words_ok o c repo hf]
    simp [contentOf, expectedContent, hf]
  · obtain ⟨e, he⟩ := count_words_err o c repo hf
    rw [he]
    simp [contentOf, expectedContent, hf]

lemma step_entry_recordedOk (per : Str → CommitOracle) (ch : Str)
    (st : LoopState) (d m : Str)
    (hm : get_commit_metadata (per ch) ch = Except.ok (d, m)) :
    recordedOk per (ch,
      ⟨d, m, errOf ((count_words_in_readme (per ch).ev ch st.repo).1)⟩) :=
  ⟨d, m, hm, rfl, rfl, errOf_isSome _ _ _⟩

lemma metaOk_elim {co : CommitOracle} (h : metaOk co) (ch : Str) :
    ∃ d m, get_commit_metadata co ch = Except.ok (d, m) := by
  obtain ⟨h1, h2⟩ := h
  rw [Option.isSome_iff_exists] at h2
  obtain ⟨⟨d, m⟩, hdm⟩ := h2
  refine ⟨d, strip m, ?_⟩
  rw [get_commit_metadata]
  simp [execute_shell_command, h1, hdm]

lemma runLoop_dict_mono (per : Str → CommitOracle) (k : Str) :
    ∀ (sel : List (Nat × Str)) (st : LoopState),
      (∃ e ∈ st.dict, e.1 = k ∧ recordedOk per e) →
      ∃ e ∈ (runLoop per sel st).2.dict, e.1 = k ∧ recordedOk per e := by
  intro sel
  induction sel with
  | nil => exact fun st h => h
  | cons p rest ih =>
    obtain ⟨n, ch⟩ := p
    intro st hex
    cases hm : get_commit_metadata (per ch) ch with
    | error e =>
      rw [runLoop_cons_err per n ch rest st e hm]
      exact hex
    | ok dm =>
      obtain ⟨d, m⟩ := dm
      rw [runLoop_cons_ok per n ch rest st d m hm]
      apply ih
      by_cases hk : ch = k
      · subst hk
        exact ⟨(ch, ⟨d, m, errOf ((count_words_in_readme (per ch).ev ch st.repo).1)⟩),
          self_mem_dictInsert _ _ _, rfl, step_entry_recordedOk per ch st d m hm⟩
      · obtain ⟨e, he, hek, hrec⟩ := hex
        exact ⟨e, mem_dictInsert_of_ne he (by rw [hek]; exact fun hh => hk hh.symm),
          hek, hrec⟩

lemma runLoop_file_mono (per : Str → CommitOracle) (k : Str) :
    ∀ (sel : List (Nat × Str)) (st : LoopState),
      (∃ f ∈ st.fs.artefacts.getD [],
        f.1 = k ++ txtSuffix ∧ f.2 = expectedContent (per k).ev) →
      ∃ f ∈ (runLoop per sel st).2.fs.artefacts.getD [],
        f.1 = k ++ txtSuffix ∧ f.2 = expectedContent (per k).ev := by
  intro sel
  induction sel with
  | nil => exact fun st h => h
  | cons p rest ih =>
    obtain ⟨n, ch⟩ := p
    intro st hex
    cases hm : get_commit_metadata (per ch) ch with
    | error e =>
      rw [runLoop_cons_err per n ch rest st e hm]
      exact hex
    | ok dm =>
      obtain ⟨d, m⟩ := dm
      rw [runLoop_cons_ok per n ch rest st d m hm]
      apply ih
      show ∃ f ∈ dictInsert (ch ++ txtSuffix)
          (contentOf ((count_words_in_readme (per ch).ev ch st.repo).1))
          (st.fs.artefacts.getD []),
        f.1 = k ++ txtSuffix ∧ f.2 = expectedContent (per k).ev
      by_cases hk : ch = k
      · subst hk
        exact ⟨(ch ++ txtSuffix,
            contentOf ((count_words_in_readme (per ch).ev ch st.repo).1)),
          self_mem_dictInsert _ _ _, rfl, contentOf_expected _ _ _⟩
      · obtain ⟨f, hf, hfk, hfc⟩ := hex
        refine ⟨f, mem_dictInsert_of_ne hf ?_, hfk, hfc⟩
        rw [hfk]
        intro hh
        exact hk (List.append_cancel_right hh).symm

lemma runLoop_records (per : Str → CommitOracle) :
    ∀ (sel : List (Nat × Str)) (st : LoopState),
      (∀ p ∈ sel, metaOk (per p.2)) →
      (runLoop per sel st).1 = Except.ok () ∧
      ∀ p ∈ sel,
        (∃ e ∈ (runLoop per sel st).2.dict, e.1 = p.2 ∧ recordedOk per e) ∧
        (∃ f ∈ (runLoop per sel st).2.fs.artefacts.getD [],
          f.1 = p.2 ++ txtSuffix ∧ f.2 = expectedContent (per p.2).ev) := by
  intro sel
  induction sel with
  | nil =>
    intro st _
    refine ⟨rfl, ?_⟩
    intro p hp
    exact absurd hp (List.not_mem_nil p)
  | cons p rest ih =>
    obtain ⟨n, ch⟩ := p
    intro st hmeta
    obtain ⟨d, m, hm⟩ := metaOk_elim (hmeta (n, ch) (by simp)) ch
    rw [runLoop_cons_ok per n ch rest st d m hm]
    have hrest := ih (stepState per ch st d m) (fun q hq => hmeta q (by simp [hq]))
    refine ⟨hrest.1, ?_⟩
    intro q hq
    rcases List.mem_cons.mp hq with hq1 | hq2
    · subst hq1
      constructor
      · apply runLoop_dict_mono
        exact ⟨(ch, ⟨d, m, errOf ((count_words_in_readme (per ch).ev ch st.repo).1)⟩),
          self_mem_dictInsert _ _ _, rfl, step_entry_recordedOk per ch st d m hm⟩
      · apply runLoop_file_mono
        show ∃ f ∈ dictInsert (ch ++ txtSuffix)
            (contentOf ((count_words_in_readme (per ch).ev ch st.repo).1))
            (st.fs.artefacts.getD []),
          f.1 = ch ++ txtSuffix ∧ f.2 = expectedContent (per ch).ev
        exact ⟨(ch ++ txtSuffix,
            contentOf ((count_words_in_readme (per ch).ev ch st.repo).1)),
          self_mem_dictInsert _ _ _, rfl, contentOf_expected _ _ _⟩
    · exact hrest.2 q hq2

/-- C3: whenever every sampled commit's metadata query succeeds, the
per-commit loop completes for the whole sample (no abort), and for every
sampled commit the aggregate record holds an entry whose error field is
non-null exactly when that commit's checkout/evaluation cycle failed,
while the commit's artifact file holds the fixed sentinel string on
failure and the stripped script output on success. -/
theorem per_commit_failure_tolerance (per : Str → CommitOracle)
    (sel : List (Nat × Str)) (st : LoopState)
    (hmeta : ∀ p ∈ sel, metaOk (per p.2)) :
    (runLoop per sel st).1 = Except.ok () ∧
    ∀ p ∈ sel,
      (∃ e ∈ (runLoop per sel st).2.dict, e.1 = p.2 ∧
        (e.2.errors ≠ none ↔ evalFails (per p.2).ev = true)) ∧
      (∃ f ∈ (runLoop per sel st).2.fs.artefacts.getD [],
        f.1 = p.2 ++ txtSuffix ∧
        f.2 = (if evalFails (per p.2).ev then sentinel
          else strip (per p.2).ev.script.stdout)) := by
  obtain ⟨h1, h2⟩ := runLoop_records per sel st hmeta
  refine ⟨h1, fun p hp => ?_⟩
  obtain ⟨⟨e, he, hek, d, m, hm, hd, hmm, herr⟩, f, hf, hfk, hfc⟩ := h2 p hp
  constructor
  · refine ⟨e, he, hek, ?_⟩
    rw [hek] at herr
    rw [← herr]
    exact Iff.symm Option.isSome_iff_ne_none
  · refine ⟨f, hf, hfk, ?_⟩
    rw [hfc]
    rfl

/-- Witness for C3: two sampled commits, the second one failing. -/
theorem per_commit_failure_tolerance_witness :
    (∀ p ∈ ([(1, ['a']), (2, ['b'])] : List (Nat × Str)), metaOk (perFix p.2)) ∧
    ((runLoop perFix [(1, ['a']), (2, ['b'])]
        ⟨⟨strS "main"⟩, ⟨some []⟩, []⟩).1 = Except.ok () ∧
      ∀ p ∈ ([(1, ['a']), (2, ['b'])] : List (Nat × Str)),
        (∃ e ∈ (runLoop perFix [(1, ['a']), (2, ['b'])]
            ⟨⟨strS "main"⟩, ⟨some []⟩, []⟩).2.dict, e.1 = p.2 ∧
          (e.2.errors ≠ none ↔ evalFails (perFix p.2).ev = true)) ∧
        (∃ f ∈ (runLoop perFix [(1, ['a']), (2, ['b'])]
            ⟨⟨strS "main"⟩, ⟨some []⟩, []⟩).2.fs.artefacts.getD [],
          f.1 = p.2 ++ txtSuffix ∧
          f.2 = (if evalFails (perFix p.2).ev then sentinel
            else strip (perFix p.2).ev.script.stdout))) :=
  ⟨by decide,
    per_commit_failure_tolerance perFix [(1, ['a']), (2, ['b'])]
      ⟨⟨strS "main"⟩, ⟨some []⟩, []⟩ (by decide)⟩

lemma runLoop_files_names (per : Str → CommitOracle) :
    ∀ (sel : List (Nat × Str)) (st : LoopState),
      ∀ x ∈ ((runLoop per sel st).2.fs.artefacts.getD []).map Prod.fst,
        x ∈ (st.fs.artefacts.getD []).map Prod.fst
          ∨ ∃ p ∈ sel, x = p.2 ++ txtSuffix := by
  intro sel
  induction sel with
  | nil =>
    intro st x hx
    exact Or.inl hx
  | cons p rest ih =>
    obtain ⟨n, ch⟩ := p
    intro st x hx
    cases hm : get_commit_metadata (per ch) ch with
    | error e =>
      rw [runLoop_cons_err per n ch rest st e hm] at hx
      exact Or.inl hx
    | ok dm =>
      obtain ⟨d, m⟩ := dm
      rw [runLoop_cons_ok per n ch rest st d m hm] at hx
      rcases ih (stepState per ch st d m) x hx with hx1 | ⟨q, hq, hxq⟩
      · have hx2 : x ∈ (dictInsert (ch ++ txtSuffix)
            (contentOf ((count_words_in_readme (per ch).ev ch st.repo).1))
            (st.fs.artefacts.getD [])).map Prod.fst := hx1
        rcases dictInsert_fst_subset hx2 with rfl | hold
        · exact Or.inr ⟨(n, ch), by simp, rfl⟩
        · exact Or.inl hold
      · exact Or.inr ⟨q, List.mem_cons_of_mem _ hq, hxq⟩

/-- C8: a completed run's artifact directory contains only the aggregate
record and this run's per-commit files — any file name not among them
(in particular every per-commit file of a prior run with a disjoint
sample) is absent — and the run's outcome is entirely independent of
whatever artifact directory existed before. -/
theorem artefacts_fully_replaced (h : HistOracle) (per : Str → CommitOracle)
    (max_commits : Nat) (created : Str) (repo : GitRepo) (fs0 : FS)
    (sel : List (Nat × Str)) (name : Str)
    (hsel : select_commits h max_commits = Except.ok sel)
    (hok : (run_on_commit_history h per max_commits created
      ⟨repo, fs0⟩).1 = Except.ok ())
    (hmj : name ≠ metadataJson)
    (hnotsel : ∀ p ∈ sel, name ≠ p.2 ++ txtSuffix) :
    name ∉ ((run_on_commit_history h per max_commits created
        ⟨repo, fs0⟩).2.fs.artefacts.getD []).map Prod.fst
    ∧ ∀ fs1, run_on_commit_history h per max_commits created ⟨repo, fs0⟩
        = run_on_commit_history h per max_commits created ⟨repo, fs1⟩ := by
  have hc : ¬ h.countErr ≠ [] := by
    intro hc
    rw [select_commits, if_pos hc] at hsel
    exact absurd hsel (by simp)
  constructor
  · intro hmem
    have hnames := runLoop_files_names per sel ⟨repo, ⟨some []⟩, []⟩ name
    rcases hr : runLoop per sel ⟨repo, ⟨some []⟩, []⟩ with ⟨r, ls⟩
    rw [hr] at hnames
    cases r with
    | error e =>
      have heq : run_on_commit_history h per max_commits created ⟨repo, fs0⟩
          = (Except.error e, ⟨ls.repo, ls.fs⟩) := by
        simp only [run_on_commit_history, hsel, hr, if_neg hc]
      rw [heq] at hok
      exact absurd hok (by simp)
    | ok u =>
      have heq : run_on_commit_history h per max_commits created ⟨repo, fs0⟩
          = (Except.ok (), ⟨ls.repo,
              writeFile metadataJson (mkMetadataContent created ls.dict) ls.fs⟩) := by
        simp only [run_on_commit_history, hsel, hr, if_neg hc]
      rw [heq] at hmem
      have hmem2 : name ∈ (dictInsert metadataJson
          (mkMetadataContent created ls.dict)
          (ls.fs.artefacts.getD [])).map Prod.fst := hmem
      rcases dictInsert_fst_subset hmem2 with rfl | hold
      · exact hmj rfl
      · rcases hnames hold with hnil | ⟨q, hq, hxq⟩
        · simp at hnil
        · exact hnotsel q hq hxq
  · intro fs1
    rfl

/-- Witness for C8: a stale `z.txt` from a prior run does not survive. -/
theorem artefacts_fully_replaced_witness :
    (select_commits ⟨[], 2, [], [['a'], ['b']]⟩ 2
        = Except.ok [(1, ['a']), (2, ['b'])]) ∧
    ((run_on_commit_history ⟨[], 2, [], [['a'], ['b']]⟩ perFix 2 []
        ⟨⟨strS "main"⟩, ⟨some [(strS "z.txt", strS "old")]⟩⟩).1
      = Except.ok ()) ∧
    (strS "z.txt" ≠ metadataJson) ∧
    (∀ p ∈ ([(1, ['a']), (2, ['b'])] : List (Nat × Str)),
      strS "z.txt" ≠ p.2 ++ txtSuffix) ∧
    (strS "z.txt" ∉ ((run_on_commit_history ⟨[], 2, [], [['a'], ['b']]⟩ perFix 2 []
        ⟨⟨strS "main"⟩, ⟨some [(strS "z.txt", strS "old")]⟩⟩).2.fs.artefacts.getD
          []).map Prod.fst) :=
  ⟨by decide, by decide, by decide, by decide,
    (artefacts_fully_replaced ⟨[], 2, [], [['a'], ['b']]⟩ perFix 2 []
      ⟨strS "main"⟩ ⟨some [(strS "z.txt", strS "old")]⟩
      [(1, ['a']), (2, ['b'])] (strS "z.txt")
      (by decide) (by decide) (by decide) (by decide)).1⟩

lemma splitFirstSpace_append (a b : Str) (ha : ' ' ∉ a) :
    splitFirstSpace (a ++ ' ' :: b) = some (a, b) := by
  induction a with
  | nil => rfl
  | cons c cs ih =>
    have hc : ¬ c = ' ' := fun hcc => ha (by rw [hcc]; exact List.mem_cons_self _ _)
    rw [List.cons_append, splitFirstSpace, if_neg hc,
      ih (fun hm => ha (List.mem_cons_of_mem _ hm))]

/-- C10: `get_commit_metadata` splits the backend's `%ci %s` output at
the first space, so the returned date is only the calendar-date portion
and the returned message is the time-of-day and timezone offset
concatenated in front of the actual summary; the loop stores exactly this
pair as the commit's date and message in the aggregate record. -/
theorem metadata_composite_message :
    (∀ (co : CommitOracle) (commit_hash datePart timeOfDay tzOffset summary : Str),
      co.showCmd.stderr = [] →
      ' ' ∉ datePart →
      co.showCmd.stdout
        = datePart ++ ' ' :: (timeOfDay ++ ' ' :: (tzOffset ++ ' ' :: summary)) →
      get_commit_metadata co commit_hash
        = Except.ok (datePart,
            strip (timeOfDay ++ ' ' :: (tzOffset ++ ' ' :: summary)))) ∧
    (∀ (per : Str → CommitOracle) (n : Nat) (ch d m : Str) (st : LoopState),
      get_commit_metadata (per ch) ch = Except.ok (d, m) →
      ∃ e ∈ (runLoop per [(n, ch)] st).2.dict,
        e.1 = ch ∧ e.2.date = d ∧ e.2.message = m) := by
  constructor
  · intro co commit_hash datePart timeOfDay tzOffset summary h1 hsp h3
    rw [get_commit_metadata]
    simp only [execute_shell_command, h1, ne_eq, not_true_eq_false, if_false,
      if_neg (by simp : ¬ ([] : Str) ≠ [])]
    rw [h3, splitFirstSpace_append _ _ hsp]
  · intro per n ch d m st hm
    rw [runLoop_cons_ok per n ch [] st d m hm]
    exact ⟨(ch, ⟨d, m, errOf ((count_words_in_readme (per ch).ev ch st.repo).1)⟩),
      self_mem_dictInsert _ _ _, rfl, rfl, rfl⟩

/-- Witness for C10 on a concrete `%ci %s` output. -/
theorem metadata_composite_message_witness :
    (get_commit_metadata ⟨⟨strS "2024-05-01 12:00:00 +0200 add docs", [], 0⟩,
        ⟨[], [], ⟨[], [], 0⟩, []⟩⟩ ['c']
      = Except.ok (strS "2024-05-01",
          strip (strS "12:00:00" ++ ' ' :: (strS "+0200" ++ ' ' :: strS "add docs")))) ∧
    (∃ e ∈ (runLoop perFix [(1, ['a'])] ⟨⟨strS "main"⟩, ⟨some []⟩, []⟩).2.dict,
      e.1 = ['a'] ∧ e.2.date = strS "2020-01-01"
        ∧ e.2.message = strS "09:00:00 +0000 init") :=
  ⟨metadata_composite_message.1
      ⟨⟨strS "2024-05-01 12:00:00 +0200 add docs", [], 0⟩, ⟨[], [], ⟨[], [], 0⟩, []⟩⟩
      ['c'] (strS "2024-05-01") (strS "12:00:00") (strS "+0200") (strS "add docs")
      rfl (by decide) (by decide),
   metadata_composite_message.2 perFix 1 ['a'] (strS "2020-01-01")
      (strS "09:00:00 +0000 init") ⟨⟨strS "main"⟩, ⟨some []⟩, []⟩ (by decide)⟩
